import Mathlib

/-
Verification of the checked-c-convert core (tools/checked-c-convert).

The development shallowly embeds the constraint-generation and rewrite-planning
code of ConstraintBuilder.cpp and CheckedCConvert.cpp.  Pure decision logic is
translated function by function; AST values, source locations and file-system
queries are represented by explicit data (types, component lists, oracles).
Parts of the repository that the claims depend on but that are not present
under src/ (the solver in Constraints.cpp, the ConstraintVariable comparison
and allocation code in ProgramInfo.cpp) are modelled from the specification
and marked as such in their doc comments.
-/

namespace ChkC

/-- The four-point qualifier lattice (ConstAtom): Ptr ≤ Arr ≤ NTArr ≤ Wild,
least is safest. -/
inductive ConstAtom
  | Ptr
  | Arr
  | NTArr
  | Wild
deriving DecidableEq, Repr, Fintype

/-- Position of a lattice constant in the total order Ptr < Arr < NTArr < Wild. -/
def rank : ConstAtom → Nat
  | .Ptr => 0
  | .Arr => 1
  | .NTArr => 2
  | .Wild => 3

/-- Lattice order (non-strict) as a boolean test. -/
def latLe (a b : ConstAtom) : Bool := rank a ≤ rank b

/-- Lattice order (strict) as a boolean test. -/
def latLt (a b : ConstAtom) : Bool := rank a < rank b

/-- Least upper bound of two lattice constants. -/
def join (a b : ConstAtom) : ConstAtom := if rank a ≤ rank b then b else a

/-- An atom: a lattice constant or a qualifier variable, identified by its
uint32_t key as allocated by ProgramInfo. -/
inductive Atom
  | const (c : ConstAtom)
  | var (n : Nat)
deriving DecidableEq, Repr

/-- The slice of the constraint language that the code under src/ emits:
ceq a b models Eq(a, b); cnot a b models Not(Eq(a, b)), the shape produced by
CS.createNot(CS.createEq(...)).  The store is an append-only list. -/
inductive Constr
  | ceq (a b : Atom)
  | cnot (a b : Atom)
deriving DecidableEq, Repr

/-- Pointwise update of an assignment of lattice constants to qualifier
variables. -/
def upd (σ : Nat → ConstAtom) (i : Nat) (v : ConstAtom) : Nat → ConstAtom :=
  fun j => if j = i then v else σ j

/-- Modelled from the spec: one monotone solver step for a single constraint
(§4.5; Constraints.cpp is not under src/).  Eq raises both endpoints to the
join of their current values; Not(Eq(q, Ptr)) raises q to at least Arr; any
other Not form emitted nowhere by the generator is a no-op. -/
def applyC (c : Constr) (σ : Nat → ConstAtom) : Nat → ConstAtom :=
  match c with
  | .ceq (.var i) (.var j) =>
      let m := join (σ i) (σ j)
      upd (upd σ i m) j m
  | .ceq (.var i) (.const k) => upd σ i (join (σ i) k)
  | .ceq (.const k) (.var j) => upd σ j (join (σ j) k)
  | .ceq (.const _) (.const _) => σ
  | .cnot (.var i) (.const .Ptr) => upd σ i (join (σ i) .Arr)
  | .cnot _ _ => σ

/-- One pass of the solver over the whole constraint store. -/
def pass (cs : List Constr) (σ : Nat → ConstAtom) : Nat → ConstAtom :=
  cs.foldl (fun s c => applyC c s) σ

/-- Modelled from the spec: the solver (§4.5; Constraints.cpp is not under
src/).  Every qualifier variable starts at Ptr, the lattice bottom, and
constraints are processed to a monotone fixpoint; the iteration bound
3 * |store| + 1 exceeds the lattice height times the store size, so the
result is the least fixpoint. -/
def solve (cs : List Constr) : Nat → ConstAtom :=
  (pass cs)^[3 * cs.length + 1] (fun _ => ConstAtom.Ptr)

/-- Model of the C types that the visitors in ConstraintBuilder.cpp inspect.
vaList stands for the va_list typedef, which on the targets in question is an
array type (so it passes the isPointerType/isArrayType guard) and whose
QualType::getAsString is the string va_list. -/
inductive CType
  | void
  | intTy
  | charTy
  | vaList
  | ptr (t : CType)
  | arrOf (t : CType)
deriving DecidableEq, Repr

/-- clang QualType::getAsString for the modelled types.  A pointer type
renders with a trailing star, so pointer-to-void renders as void-star, never
as the bare string va_list or void. -/
def CType.getAsString : CType → String
  | .void => "void"
  | .intTy => "int"
  | .charTy => "char"
  | .vaList => "va_list"
  | .ptr t => t.getAsString ++ " *"
  | .arrOf t => t.getAsString ++ " []"

/-- clang Type::isVoidType: true only for the type void itself, not for
pointer-to-void. -/
def CType.isVoidType : CType → Bool
  | .void => true
  | _ => false

/-- clang Type::isPointerType. -/
def CType.isPointerType : CType → Bool
  | .ptr _ => true
  | _ => false

/-- clang Type::isArrayType; va_list is an array type on the target. -/
def CType.isArrayType : CType → Bool
  | .arrOf _ => true
  | .vaList => true
  | _ => false

/-- Modelled from the spec: the number of qualifier variables the
PointerVariableConstraint constructor (ProgramInfo.cpp, not under src/)
allocates — one per pointer/array indirection level (§ Data model); va_list,
being an array type, gets one. -/
def levelsOf : CType → Nat
  | .ptr t => 1 + levelsOf t
  | .arrOf t => 1 + levelsOf t
  | .vaList => 1
  | _ => 0

/-- Modelled from the spec: constraints appended by ProgramInfo::addVariable
itself (ProgramInfo.cpp is not under src/).  §4.2 steps 1–3 only allocate the
constraint-variable tree; the Eq(qv, Wild) step for void/va_list is realised
in the code by the separate src/ function specialCaseVarIntros, which the
visitors invoke (or fail to invoke) after addVariable, so addVariable itself
appends none of those constraints. -/
def addVariableConstraints (_ty : CType) : List Constr := []

/-- specialCaseVarIntros (ConstraintBuilder.cpp): if the declared type prints
as va_list or is the void type, constrain every qualifier variable of the
declaration's PointerCV to Wild.  cvars is the qualifier-variable list of
that PointerCV, lowest (outer-most) key first. -/
def specialCaseVarIntros (ty : CType) (cvars : List Nat) : List Constr :=
  if ty.getAsString == "va_list" || ty.isVoidType then
    cvars.map (fun q => Constr.ceq (.var q) (.const .Wild))
  else []

/-- FunctionVisitor::MyVisitVarDecl: for a local variable of pointer or array
type (with valid, non-system-header locations, assumed here), call
Info.addVariable and then specialCaseVarIntros.  The constraints emitted are
returned; the fresh PointerCV's qualifier variables are 0..levels-1. -/
def localVarIntro (ty : CType) : List Constr :=
  if ty.isPointerType || ty.isArrayType then
    addVariableConstraints ty ++ specialCaseVarIntros ty (List.range (levelsOf ty))
  else []

/-- GlobalVisitor::VisitVarDecl: for a global-storage variable of pointer or
array type, call Info.addVariable only — the code never calls
specialCaseVarIntros on globals. -/
def globalVarIntro (ty : CType) : List Constr :=
  if ty.isPointerType || ty.isArrayType then
    addVariableConstraints ty
  else []

/-- GlobalVisitor::VisitRecordDecl, per field of pointer or array type:
Info.addVariable followed by specialCaseVarIntros. -/
def fieldVarIntro (ty : CType) : List Constr :=
  if ty.isPointerType || ty.isArrayType then
    addVariableConstraints ty ++ specialCaseVarIntros ty (List.range (levelsOf ty))
  else []

/-- A constraint variable as the constraint builder sees it: a
PointerVariableConstraint with its qualifier-variable keys (ascending, the
outer-most pointer level having the lowest key, as documented at the top of
ProgramInfo.h), or a FunctionVariableConstraint, whose internals the
functions modelled here never open (they filter with dyn_cast). -/
inductive CVar
  | pv (cvars : List Nat)
  | fv
deriving DecidableEq, Repr

/-- The PointerCV-versus-PointerCV arm of constrainEq
(ConstraintBuilder.cpp): with equally many levels, one Eq per corresponding
pair walking both ascending cvar lists in lockstep; with unequal levels, an
Eq for every pair drawn one from each side. -/
def constrainEqPV (lhs rhs : List Nat) : List Constr :=
  if lhs.length = rhs.length then
    List.zipWith (fun i j => Constr.ceq (.var i) (.var j)) lhs rhs
  else
    lhs.flatMap (fun i => rhs.map (fun j => Constr.ceq (.var i) (.var j)))

/-- The integer-constant branch (Case 2) of FunctionVisitor::constrainAssign:
reached when the LHS has constraint variables, the RHS has none, and the RHS
(parentheses stripped) is an integer constant expression.  A null-pointer
constant adds nothing; any other integer constrains every qualifier variable
of every PointerCV on the LHS to Wild (FunctionCVs are skipped by the
dyn_cast filter). -/
def constrainAssignIntCase (V : List CVar) (isNullPtrConst : Bool) : List Constr :=
  if isNullPtrConst then []
  else
    V.flatMap (fun cv =>
      match cv with
      | .pv qs => qs.map (fun q => Constr.ceq (.var q) (.const .Wild))
      | .fv => [])

/-- FunctionVisitor::constrainExprFirstArr, called by VisitArraySubscriptExpr
on the base of a subscript: for each PointerCV with a non-empty cvar set, add
Eq on the first (lowest-keyed, outer-most) qualifier variable against Arr. -/
def constrainExprFirstArr (V : List CVar) : List Constr :=
  V.flatMap (fun cv =>
    match cv with
    | .pv (q :: _) => [Constr.ceq (.var q) (.const .Arr)]
    | _ => [])

/-- The constraint store produced for the two-statement program
int *p; p = 0;  — MyVisitVarDecl introduces p (one level, key 0), and the
initializer-free declaration plus the null assignment add nothing: the
literal 0 has no constraint variables, is an integer constant expression and
a null-pointer constant. -/
def nullAssignStore : List Constr :=
  localVarIntro (CType.ptr .intTy) ++
    constrainAssignIntCase [CVar.pv (List.range (levelsOf (CType.ptr .intTy)))] true

/-- The comparison getHighest performs on its running value V against the next
element P (CheckedCConvert.cpp): V->isLt(P) and not V->isEq(P). -/
def ltStrict (lt eq : α → α → Bool) (a b : α) : Bool := lt a b && !eq a b

/-- One step of the getHighest scan (CheckedCConvert.cpp): the running value V
is replaced by P when V->isLt(P) and not V->isEq(P). -/
def ghStep (lt eq : α → α → Bool) (V P : α) : α :=
  if ltStrict lt eq V P then P else V

/-- getHighest (CheckedCConvert.cpp): nullptr on an empty set, otherwise scan
the set keeping the running best under ghStep.  The C++ iterates a std::set
of pointers; the list argument is that iteration sequence. -/
def getHighest (lt eq : α → α → Bool) : List α → Option α
  | [] => none
  | v :: rest => some (List.foldl (ghStep lt eq) v rest)

/-- Summary view of a ConstraintVariable as the rewrite planner uses it:
its solved qualifier and the string its mkString renders to. -/
structure CVm where
  sq : ConstAtom
  str : String
deriving DecidableEq, Repr

/-- Modelled from the spec: ConstraintVariable::isLt (ProgramInfo.cpp is not
under src/) compares two constraint variables by their solved qualifiers on
the lattice. -/
def ltCV (a b : CVm) : Bool := latLt a.sq b.sq

/-- Modelled from the spec: ConstraintVariable::isEq (ProgramInfo.cpp is not
under src/) holds when the solved qualifiers agree. -/
def eqCV (a b : CVm) : Bool := a.sq == b.sq

/-- A rewriter action, in the order the code issues it: InsertTextBefore or
InsertTextAfter at a source location (locations are abstract numbers). -/
inductive Edit
  | insBefore (loc : Nat) (s : String)
  | insAfter (loc : Nat) (s : String)
deriving DecidableEq, Repr

/-- The C-style-cast data CastPlacementVisitor::assign inspects when the RHS
expression is a cast: the cast's own location, the sub-expression's location,
the sub-expression's begin and end locations, and the sub-expression's
constraint variables. -/
structure CastM where
  castLoc : Nat
  subLoc : Nat
  subEsl : Nat
  subEll : Nat
  subVars : List CVm
deriving DecidableEq, Repr

/-- The source (RHS) expression data CastPlacementVisitor::assign inspects:
its begin and end locations, whether it is a call whose callee declaration
carries a bounds expression (the suppression hack), and the cast data when it
is a C-style cast. -/
structure SrcM where
  esl : Nat
  ell : Nat
  boundsItf : Bool
  castSub : Option CastM
deriving DecidableEq, Repr

/-- The cast-unwrapping step of CastPlacementVisitor::assign: only when the
RHS has no constraint variables and the source expression is a C-style cast
does the visitor fall back to the cast's sub-expression. -/
def unwrapCast (rhs : List CVm) (src : SrcM) : List CVm × Option CastM :=
  if rhs.isEmpty then
    match src.castSub with
    | some c => (c.subVars, some c)
    | none => (rhs, none)
  else (rhs, none)

/-- The emission tail of CastPlacementVisitor::assign once both highest
constraint variables A (LHS) and B (RHS) exist: equal solved qualifiers emit
nothing; A below B wraps the source in an Assume-bounds cast (text before the
begin location, a closing parenthesis after the end location); otherwise a
plain C-style cast string goes before the begin location.  When the RHS was
unwrapped from a C-style cast, the locations are the sub-expression's and the
old cast is commented out with two more insertions. -/
def assignEmit (A B : CVm) (cOpt : Option CastM) (src : SrcM) : List Edit :=
  if eqCV A B then []
  else
    let esl := match cOpt with | some c => c.subEsl | none => src.esl
    let ell := match cOpt with | some c => c.subEll | none => src.ell
    let main :=
      if ltCV A B then
        [Edit.insBefore esl ("_Assume_bounds_cast<" ++ A.str ++ ">("),
         Edit.insAfter ell ")"]
      else
        [Edit.insBefore esl ("(" ++ A.str ++ ")")]
    main ++
      (match cOpt with
       | some c => [Edit.insBefore c.castLoc "/*", Edit.insBefore c.subLoc "*/"]
       | none => [])

/-- CastPlacementVisitor::assign (CheckedCConvert.cpp), the routine behind
assignments and initializers: bail out on an empty LHS or when the source is
a call with a bounds-safe interface; otherwise compare the highest LHS and
RHS constraint variables and emit the edits of assignEmit. -/
def assign (lhs rhs : List CVm) (src : SrcM) : List Edit :=
  if lhs.isEmpty then []
  else if src.boundsItf then []
  else
    match getHighest ltCV eqCV lhs with
    | none => []
    | some A =>
      match unwrapCast rhs src with
      | (rhs2, cOpt) =>
        match getHighest ltCV eqCV rhs2 with
        | none => []
        | some B => assignEmit A B cOpt src

/-- The per-argument data CastPlacementVisitor::VisitCallExpr inspects:
whether the matching parameter declaration carries a bounds expression,
whether the argument's type is a pointer type, the argument's begin location
(after implicit casts), and the constraint-variable sets of the argument, the
declaration's parameter and the definition's parameter. -/
structure ArgSite where
  paramHasBounds : Bool
  argIsPtr : Bool
  esl : Nat
  argCVs : List CVm
  declCVs : List CVm
  defCVs : List CVm
deriving DecidableEq, Repr

/-- The declaration/definition reconciliation in VisitCallExpr: when the
definition's highest parameter constraint exists and differs from the
declaration's, the lower of the two is used as the parameter side. -/
def effParam (P0 : CVm) (cOpt : Option CVm) : CVm :=
  match cOpt with
  | some C => if !eqCV P0 C && ltCV C P0 then C else P0
  | none => P0

/-- One argument position of CastPlacementVisitor::VisitCallExpr: skip when
the parameter has a bounds expression, the argument is not pointer-typed, or
a highest constraint variable is missing on either side; otherwise compare
the argument's and the (reconciled) parameter's solved qualifiers and insert
cast text.  Note that in the Assume-bounds branch the code inserts the
closing parenthesis with InsertTextAfter at ESL, the argument's begin
location, not at its end. -/
def callArgEdits (a : ArgSite) : List Edit :=
  if a.paramHasBounds then []
  else if !a.argIsPtr then []
  else
    match getHighest ltCV eqCV a.argCVs with
    | none => []
    | some E =>
      match getHighest ltCV eqCV a.declCVs with
      | none => []
      | some P0 =>
        let P := effParam P0 (getHighest ltCV eqCV a.defCVs)
        if eqCV E P then []
        else if ltCV P E then
          [Edit.insBefore a.esl ("_Assume_bounds_cast<" ++ P.str ++ ">("),
           Edit.insAfter a.esl ")"]
        else
          [Edit.insBefore a.esl ("(" ++ P.str ++ ")")]

/-- CastPlacementVisitor::VisitCallExpr for a call whose callee resolved to a
FunctionDecl: if the callee is variadic the visitor returns without touching
the rewriter; otherwise each argument position contributes the edits of
callArgEdits. -/
def visitCallEdits (isVariadic : Bool) (args : List ArgSite) : List Edit :=
  if isVariadic then [] else args.flatMap callArgEdits

/-- The three outcomes of the modular-conversion planner for a parameter. -/
inductive InterfaceCase
  | IncreaseCallers
  | MakeBoundary
  | DoNothing
deriving DecidableEq, Repr

/-- The facts about a pointer-typed parameter that canInterface consults:
whether the enclosing function has a body, is variadic, has a declaration
distinct from the definition, and the solved qualifiers of the highest
constraint variables of the declaration's and the definition's parameter. -/
structure ParamView where
  hasBody : Bool
  isVariadic : Bool
  hasSecondDecl : Bool
  declSq : ConstAtom
  defSq : ConstAtom
deriving DecidableEq, Repr

/-- canInterface (CheckedCConvert.cpp): DoNothing without a body, for a
variadic function, or without a second declaration; MakeBoundary when the
definition's solved parameter qualifier is strictly below the declaration's
(U->isLt(V) with U from the definition); IncreaseCallers otherwise. -/
def canInterface (f : ParamView) : InterfaceCase :=
  if !f.hasBody || f.isVariadic then .DoNothing
  else if !f.hasSecondDecl then .DoNothing
  else if latLt f.defSq f.declSq then .MakeBoundary
  else .IncreaseCallers

/-- The path separator; llvm sys::path::get_separator on POSIX. -/
def sepStr : String := "/"

/-- The component-walk loop of canWrite (CheckedCConvert.cpp).  Paths are
llvm path-component lists (for an absolute POSIX path the first component is
the root /); the accumulated baseSoFar/pathSoFar strings are represented by
the lists of components appended so far, which determine them uniquely since
components contain no separator.  fsEq is the sys::fs::equivalent oracle on
the two prefixes (it follows symlinks, comparing inodes); stOk is the
sys::fs::status success oracle.  The loop runs while both iterators remain;
a status failure returns false, a non-equivalent prefix pair breaks with the
base not exhausted (hence false), and on normal exit the file is writable iff
the base was exhausted and the two accumulated prefixes are equal as
strings. -/
def cwLoop (fsEq : List String → List String → Bool) (stOk : List String → Bool) :
    List String → List String → List String → List String → Bool
  | [], _, bSo, pSo => bSo == pSo
  | _ :: _, [], _, _ => false
  | s1 :: bs, s2 :: ps, bSo, pSo =>
    if stOk bSo && stOk pSo then
      if fsEq bSo pSo then
        cwLoop fsEq stOk bs ps
          (if s1 == sepStr then bSo else bSo ++ [s1])
          (if s2 == sepStr then pSo else pSo ++ [s2])
      else false
    else false

/-- canWrite (CheckedCConvert.cpp): true when the file's absolute path is one
of the paths given on the command line (string comparison of absolute paths,
here their component lists), or when the component walk against the base
succeeds.  Both paths are consumed with their first component pre-loaded into
the accumulators, exactly as the code does before its loop. -/
def canWrite (fsEq : List String → List String → Bool) (stOk : List String → Bool)
    (fileComps : List String) (iof : List (List String)) (baseComps : List String) :
    Bool :=
  if iof.contains fileComps then true
  else
    match baseComps, fileComps with
    | b0 :: bs, p0 :: ps => cwLoop fsEq stOk bs ps [b0] [p0]
    | _, _ => false

/-- llvm sys::path::remove_filename on a component list: drop the last
component (parent_path), keeping the root. -/
def removeFileName : List String → List String
  | [] => []
  | [_] => []
  | c :: d :: rest => c :: removeFileName (d :: rest)

/-- The emit-side write decision (emit, CheckedCConvert.cpp) for a touched
file with a rewrite buffer, a valid FileEntry and a non-stdout output
postfix: emit makes the base directory absolute, applies
sys::path::remove_filename to it, and passes the result to canWrite together
with the file's absolute path and the command-line path set. -/
def emitWrites (fsEq : List String → List String → Bool) (stOk : List String → Bool)
    (iof : List (List String)) (baseDirComps fileComps : List String) : Bool :=
  canWrite fsEq stOk fileComps iof (removeFileName baseDirComps)

/-- Component-list prefix test, used only to phrase the specification side of
the write policy. -/
def compPre : List String → List String → Bool
  | [], _ => true
  | _ :: _, [] => false
  | a :: as2, b :: bs2 => a == b && compPre as2 bs2

/-- The write policy exactly as the claim states it (spec side, for
comparison with the code's emitWrites): a touched file is written iff its
canonical absolute path was explicitly given on the command line, or that
path is a descendant of the --base-dir directory. -/
def writePolicyClaim (iof : List (List String)) (baseDirComps fileComps : List String) :
    Bool :=
  iof.contains fileComps ||
    (compPre baseDirComps fileComps && baseDirComps.length < fileComps.length)

/-- The join never drops below its left argument. -/
theorem rank_le_join_left (a b : ConstAtom) : rank a ≤ rank (join a b) := by
  revert a b; decide

/-- The join never drops below its right argument. -/
theorem rank_le_join_right (a b : ConstAtom) : rank b ≤ rank (join a b) := by
  revert a b; decide

/-- Strict lattice comparison refutes equality in both directions and the
reverse comparison. -/
theorem latLt_facts (a b : ConstAtom) (h : latLt a b = true) :
    (a == b) = false ∧ (b == a) = false ∧ latLt b a = false := by
  revert h; revert a b; decide

/-- A single solver step never lowers the value of any qualifier variable. -/
theorem rank_le_applyC (c : Constr) (σ : Nat → ConstAtom) (q : Nat) :
    rank (σ q) ≤ rank (applyC c σ q) := by
  unfold applyC
  split
  next i j =>
    simp only [upd]
    by_cases hj : q = j
    · simp only [hj, if_pos rfl]
      exact rank_le_join_right _ _
    · simp only [if_neg hj]
      by_cases hi : q = i
      · simp only [hi, if_pos rfl]
        exact rank_le_join_left _ _
      · simp only [if_neg hi]
        exact le_refl _
  next i k =>
    simp only [upd]
    by_cases hi : q = i
    · simp only [hi, if_pos rfl]
      exact rank_le_join_left _ _
    · simp only [if_neg hi]
      exact le_refl _
  next k j =>
    simp only [upd]
    by_cases hj : q = j
    · simp only [hj, if_pos rfl]
      exact rank_le_join_left _ _
    · simp only [if_neg hj]
      exact le_refl _
  next => exact le_refl _
  next i =>
    simp only [upd]
    by_cases hi : q = i
    · simp only [hi, if_pos rfl]
      exact rank_le_join_left _ _
    · simp only [if_neg hi]
      exact le_refl _
  next => exact le_refl _

/-- A full solver pass never lowers the value of any qualifier variable. -/
theorem rank_le_pass (cs : List Constr) (σ : Nat → ConstAtom) (q : Nat) :
    rank (σ q) ≤ rank (pass cs σ q) := by
  induction cs generalizing σ with
  | nil => exact le_refl _
  | cons c t ih =>
    have h1 := rank_le_applyC c σ q
    have h2 := ih (applyC c σ)
    calc rank (σ q) ≤ rank (applyC c σ q) := h1
      _ ≤ rank (pass t (applyC c σ) q) := h2

/-- After a pass over a store containing Eq(q, Arr), the value of q is at
least Arr. -/
theorem pass_arr_lb (q : Nat) (cs : List Constr)
    (h : Constr.ceq (.var q) (.const .Arr) ∈ cs) (σ : Nat → ConstAtom) :
    1 ≤ rank (pass cs σ q) := by
  induction cs generalizing σ with
  | nil => cases h
  | cons c t ih =>
    rcases List.mem_cons.mp h with hc | hmem
    · have h1 : 1 ≤ rank (applyC c σ q) := by
        subst hc
        simp only [applyC, upd, if_pos rfl]
        have : rank ConstAtom.Arr ≤ rank (join (σ q) ConstAtom.Arr) :=
          rank_le_join_right _ _
        exact this
      exact le_trans h1 (rank_le_pass t (applyC c σ) q)
    · exact ih hmem (applyC c σ)

/-- Iterating the solver pass preserves established lower bounds. -/
theorem iterate_pass_lb (cs : List Constr) (q n : Nat) (σ : Nat → ConstAtom)
    (h : 1 ≤ rank (σ q)) : 1 ≤ rank ((pass cs)^[n] σ q) := by
  induction n generalizing σ with
  | zero => simpa using h
  | succ m ih =>
    rw [Function.iterate_succ_apply]
    exact ih (pass cs σ) (le_trans h (rank_le_pass cs σ q))

/-- The solved value of a qualifier variable mentioned in an Eq(q, Arr)
constraint is at least Arr. -/
theorem solve_arr_lb (cs : List Constr) (q : Nat)
    (h : Constr.ceq (.var q) (.const .Arr) ∈ cs) :
    latLe .Arr (solve cs q) = true := by
  have h1 : 1 ≤ rank (solve cs q) := by
    unfold solve
    rw [Function.iterate_succ_apply]
    exact iterate_pass_lb cs q _ _ (pass_arr_lb q cs h _)
  simp only [latLe, decide_eq_true_eq]
  exact h1

/-- On the empty store the solver returns the bottom element Ptr everywhere. -/
theorem solve_nil (q : Nat) : solve [] q = ConstAtom.Ptr := by
  unfold solve
  have h : pass [] (fun _ => ConstAtom.Ptr) = (fun _ => ConstAtom.Ptr) := rfl
  rw [Function.iterate_fixed h]

/-- C1: the claim says every void*- or va_list-typed declaration with a
constraint variable (local, global or field) gets Eq(qv, Wild) on every
qualifier variable at creation.  Evaluating the creation paths at the failing
inputs: a local void *p (one qualifier variable) gets no constraint at all —
specialCaseVarIntros tests isVoidType() on the declared type, which is false
for pointer-to-void (and can never be true for a declaration passing the
pointer/array filter) — and a global va_list or void* gets none either,
because GlobalVisitor::VisitVarDecl never calls specialCaseVarIntros.  Only
the local/field va_list paths behave as claimed. -/
theorem c1_wild_intro_eval :
    localVarIntro (CType.ptr .void) = [] ∧
    globalVarIntro CType.vaList = [] ∧
    globalVarIntro (CType.ptr .void) = [] ∧
    fieldVarIntro (CType.ptr .void) = [] ∧
    levelsOf (CType.ptr .void) = 1 ∧
    localVarIntro CType.vaList = [Constr.ceq (.var 0) (.const .Wild)] ∧
    fieldVarIntro CType.vaList = [Constr.ceq (.var 0) (.const .Wild)] := by
  refine ⟨rfl, rfl, rfl, rfl, rfl, ?_, ?_⟩ <;> rfl

/-- C4: in the integer-constant branch of constrainAssign, a null-pointer
constant adds no constraint; any other integer constant equates every
qualifier variable of every PointerCV on the LHS with Wild, and nothing else
is emitted; and for the program int *p; p = 0; the store stays empty, so the
solved qualifier of p is Ptr, the lattice bottom. -/
theorem c4_int_const_assign :
    (∀ V : List CVar, constrainAssignIntCase V true = []) ∧
    (∀ (V : List CVar) (qs : List Nat) (q : Nat),
        CVar.pv qs ∈ V → q ∈ qs →
        Constr.ceq (.var q) (.const .Wild) ∈ constrainAssignIntCase V false) ∧
    (∀ (V : List CVar) (c : Constr), c ∈ constrainAssignIntCase V false →
        ∃ qs q, CVar.pv qs ∈ V ∧ q ∈ qs ∧
          c = Constr.ceq (.var q) (.const .Wild)) ∧
    nullAssignStore = [] ∧
    solve nullAssignStore 0 = ConstAtom.Ptr := by
  have hred : ∀ V : List CVar, constrainAssignIntCase V false =
      V.flatMap (fun cv =>
        match cv with
        | .pv qs => qs.map (fun q => Constr.ceq (.var q) (.const .Wild))
        | .fv => []) := fun _ => rfl
  refine ⟨?_, ?_, ?_, ?_, ?_⟩
  · intro V; rfl
  · intro V qs q hV hq
    rw [hred]
    simp only [List.mem_flatMap]
    refine ⟨CVar.pv qs, hV, ?_⟩
    simp only [List.mem_map]
    exact ⟨q, hq, rfl⟩
  · intro V c hc
    rw [hred] at hc
    simp only [List.mem_flatMap] at hc
    rcases hc with ⟨cv, hcv, hc2⟩
    cases cv with
    | pv qs =>
      simp only [List.mem_map] at hc2
      rcases hc2 with ⟨q, hq, rfl⟩
      exact ⟨qs, q, hcv, hq, rfl⟩
    | fv => cases hc2
  · rfl
  · have h : nullAssignStore = [] := rfl
    rw [h]
    exact solve_nil 0

/-- C4 witness: the non-null branch applied to a concrete LHS set holding a
FunctionCV and a two-level PointerCV. -/
theorem c4_int_const_assign_w :
    Constr.ceq (.var 1) (.const .Wild) ∈
      constrainAssignIntCase [CVar.fv, CVar.pv [0, 1]] false ∧
    constrainAssignIntCase [CVar.fv, CVar.pv [0, 1]] true = [] := by
  exact ⟨c4_int_const_assign.2.1 [CVar.fv, CVar.pv [0, 1]] [0, 1] 1
           (by decide) (by decide),
         c4_int_const_assign.1 [CVar.fv, CVar.pv [0, 1]]⟩

/-- Elements of the equal-arity zip of constrainEq are variable-variable
equalities of corresponding list entries. -/
theorem zip_ceq_get (l r : List Nat) :
    ∀ (k : Nat) (h1 : k < l.length) (h2 : k < r.length)
      (h3 : k < (List.zipWith (fun i j => Constr.ceq (.var i) (.var j)) l r).length),
      (List.zipWith (fun i j => Constr.ceq (.var i) (.var j)) l r)[k] =
        Constr.ceq (.var l[k]) (.var r[k]) := by
  induction l generalizing r with
  | nil => intro k h1; exact absurd h1 (by simp)
  | cons a t ih =>
    intro k h1 h2 h3
    cases r with
    | nil => exact absurd h2 (by simp)
    | cons b tr =>
      cases k with
      | zero => rfl
      | succ m =>
        simp only [List.zipWith_cons_cons, List.getElem_cons_succ]
        exact ih tr m (by simpa using h1) (by simpa using h2)
          (by simpa using h3)

/-- Every element of the equal-arity zip is a variable-variable equality. -/
theorem zip_ceq_shape (l r : List Nat) (c : Constr)
    (h : c ∈ List.zipWith (fun i j => Constr.ceq (.var i) (.var j)) l r) :
    ∃ i j, c = Constr.ceq (.var i) (.var j) := by
  induction l generalizing r with
  | nil => cases h
  | cons a t ih =>
    cases r with
    | nil => cases h
    | cons b tr =>
      rcases List.mem_cons.mp h with rfl | hmem
      · exact ⟨a, b, rfl⟩
      · exact ih tr hmem

/-- C5: constrainEq on two PointerCVs emits, for equal level counts, exactly
one Eq per corresponding pair of levels (one constraint per index, pairing
the k-th qualifier variables of the two sides); for unequal level counts it
emits an Eq for every pair of qualifier variables drawn one from each side;
and in both cases every emitted constraint is a variable-variable equality,
so neither side is constrained to Wild by this rule. -/
theorem c5_constrainEq_pv (lhs rhs : List Nat) :
    (lhs.length = rhs.length →
       (constrainEqPV lhs rhs).length = lhs.length ∧
       ∀ (k : Nat) (h1 : k < lhs.length) (h2 : k < rhs.length)
         (h3 : k < (constrainEqPV lhs rhs).length),
         (constrainEqPV lhs rhs)[k] = Constr.ceq (.var lhs[k]) (.var rhs[k])) ∧
    (lhs.length ≠ rhs.length →
       ∀ c : Constr, c ∈ constrainEqPV lhs rhs ↔
         ∃ i ∈ lhs, ∃ j ∈ rhs, c = Constr.ceq (.var i) (.var j)) ∧
    (∀ c ∈ constrainEqPV lhs rhs, ∃ i j, c = Constr.ceq (.var i) (.var j)) := by
  refine ⟨?_, ?_, ?_⟩
  · intro hlen
    constructor
    · simp only [constrainEqPV, if_pos hlen, List.length_zipWith]
      omega
    · intro k h1 h2 h3
      simp only [constrainEqPV, if_pos hlen] at h3 ⊢
      exact zip_ceq_get lhs rhs k h1 h2 h3
  · intro hlen c
    simp only [constrainEqPV, if_neg hlen, List.mem_flatMap, List.mem_map]
    constructor
    · rintro ⟨i, hi, j, hj, rfl⟩
      exact ⟨i, hi, j, hj, rfl⟩
    · rintro ⟨i, hi, j, hj, rfl⟩
      exact ⟨i, hi, j, hj, rfl⟩
  · intro c hc
    by_cases hlen : lhs.length = rhs.length
    · simp only [constrainEqPV, if_pos hlen] at hc
      exact zip_ceq_shape lhs rhs c hc
    · simp only [constrainEqPV, if_neg hlen, List.mem_flatMap, List.mem_map] at hc
      rcases hc with ⟨i, _, j, _, rfl⟩
      exact ⟨i, j, rfl⟩

/-- C5 witness: the equal-arity case on two two-level PointerCVs and the
unequal-arity case pairing a two-level against a one-level PointerCV. -/
theorem c5_constrainEq_pv_w :
    (constrainEqPV [0, 1] [2, 3]).length = 2 ∧
    (constrainEqPV [0, 1] [2, 3]).get ⟨0, by decide⟩ = Constr.ceq (.var 0) (.var 2) ∧
    Constr.ceq (.var 1) (.var 2) ∈ constrainEqPV [0, 1] [2] := by
  have heq := (c5_constrainEq_pv [0, 1] [2, 3]).1 rfl
  have h0 := heq.2 0 (by decide) (by decide) (by decide)
  have hne := ((c5_constrainEq_pv [0, 1] [2]).2.1 (by decide)
    (Constr.ceq (.var 1) (.var 2))).mpr ⟨1, by decide, 2, by decide, rfl⟩
  refine ⟨heq.1, ?_, hne⟩
  rw [List.get_eq_getElem]
  exact h0

/-- C6: a subscripted base expression resolving to a PointerCV with at least
one qualifier variable yields an Eq(outer_qv, Arr) on its outer-most (first,
lowest-keyed) qualifier variable, and any store containing that constraint
solves that variable to at least Arr. -/
theorem c6_subscript_arr (V : List CVar) (q : Nat) (t : List Nat)
    (h : CVar.pv (q :: t) ∈ V) :
    Constr.ceq (.var q) (.const .Arr) ∈ constrainExprFirstArr V ∧
    ∀ cs : List Constr, Constr.ceq (.var q) (.const .Arr) ∈ cs →
      latLe .Arr (solve cs q) = true := by
  constructor
  · simp only [constrainExprFirstArr, List.mem_flatMap]
    exact ⟨CVar.pv (q :: t), h, by simp⟩
  · intro cs hcs
    exact solve_arr_lb cs q hcs

/-- C6 witness: the subscript constraint for a concrete two-level PointerCV
and its solver consequence on the one-constraint store. -/
theorem c6_subscript_arr_w :
    Constr.ceq (.var 2) (.const .Arr) ∈ constrainExprFirstArr [CVar.pv [2, 3]] ∧
    latLe .Arr (solve [Constr.ceq (.var 2) (.const .Arr)] 2) = true := by
  have h := c6_subscript_arr [CVar.pv [2, 3]] 2 [3] (by decide)
  exact ⟨h.1, h.2 [Constr.ceq (.var 2) (.const .Arr)] (by decide)⟩

/-- C7: the claim says a touched file is written iff it was explicitly on the
command line or its path is a descendant of the --base-dir directory.
Evaluating the code at --base-dir /a/b with touched file /a/f.c, not on the
command line and not under /a/b: emit applies sys::path::remove_filename to
the absolute base directory before the containment walk, so the walk runs
against /a and the file IS written (first conjunct), although the claimed
policy refuses it (second conjunct).  Real descendants of /a/b are also
written (third conjunct), so the divergence is strict over-approval. -/
theorem c7_basedir_eval :
    emitWrites (fun a b => a == b) (fun _ => true) []
      ["/", "a", "b"] ["/", "a", "f.c"] = true ∧
    writePolicyClaim [] ["/", "a", "b"] ["/", "a", "f.c"] = false ∧
    emitWrites (fun a b => a == b) (fun _ => true) []
      ["/", "a", "b"] ["/", "a", "b", "g.c"] = true := by
  refine ⟨?_, ?_, ?_⟩ <;> rfl

/-- C10: a call expression whose callee resolves to a variadic function
declaration contributes no rewriter action at any argument
(CastPlacementVisitor::VisitCallExpr returns before inspecting arguments),
while the same visitor on a non-variadic callee does produce insertions, so
the frame property is not vacuous. -/
theorem c10_variadic_frame :
    (∀ args : List ArgSite, visitCallEdits true args = []) ∧
    visitCallEdits false
      [ArgSite.mk false true 7 [CVm.mk .Wild "w"] [CVm.mk .Ptr "p"] []] ≠ [] := by
  constructor
  · intro args; rfl
  · decide

/-- The getHighest fold stays inside the scanned elements. -/
theorem gh_fold_mem {α : Type} (lt eq : α → α → Bool) :
    ∀ (rest : List α) (v : α),
      List.foldl (ghStep lt eq) v rest = v ∨ List.foldl (ghStep lt eq) v rest ∈ rest := by
  intro rest
  induction rest with
  | nil => intro v; left; rfl
  | cons h t ih =>
    intro v
    have hstep : ghStep lt eq v h = v ∨ ghStep lt eq v h = h := by
      unfold ghStep
      by_cases hc : ltStrict lt eq v h = true
      · right; simp [hc]
      · left; simp [hc]
    rw [List.foldl_cons]
    rcases ih (ghStep lt eq v h) with h1 | h2
    · rcases hstep with e | e
      · left; rw [h1, e]
      · right; rw [h1, e]; exact List.mem_cons_self _ _
    · right; exact List.mem_cons_of_mem _ h2

/-- Once the running value of the getHighest fold is not strictly below y, the
final value is not either (under transitivity of the strict comparison on a
carrier list l). -/
theorem gh_no_regress {α : Type} (lt eq : α → α → Bool) (l : List α)
    (Ht : ∀ a ∈ l, ∀ b ∈ l, ∀ c ∈ l, ltStrict lt eq a b = true →
      ltStrict lt eq b c = true → ltStrict lt eq a c = true) :
    ∀ (rest : List α) (v y : α), (∀ x ∈ rest, x ∈ l) → v ∈ l → y ∈ l →
      ltStrict lt eq v y = false →
      ltStrict lt eq (List.foldl (ghStep lt eq) v rest) y = false := by
  intro rest
  induction rest with
  | nil => intro v y _ _ _ hvy; simpa using hvy
  | cons h t ih =>
    intro v y hsub hv hy hvy
    have hh : h ∈ l := hsub h (List.mem_cons_self _ _)
    have hts : ∀ x ∈ t, x ∈ l := fun x hx => hsub x (List.mem_cons_of_mem _ hx)
    rw [List.foldl_cons]
    by_cases hc : ltStrict lt eq v h = true
    · have hstep : ghStep lt eq v h = h := by unfold ghStep; simp [hc]
      rw [hstep]
      have hhy : ltStrict lt eq h y = false := by
        cases hb : ltStrict lt eq h y
        · rfl
        · exact absurd (Ht v hv h hh y hy hc hb) (by simp [hvy])
      exact ih h y hts hh hy hhy
    · have hstep : ghStep lt eq v h = v := by unfold ghStep; simp [hc]
      rw [hstep]
      exact ih v y hts hv hy hvy

/-- Under irreflexivity and transitivity of the strict comparison on the
scanned elements, no scanned element is strictly above the getHighest fold
result. -/
theorem gh_fold_max {α : Type} (lt eq : α → α → Bool) (l : List α)
    (Hi : ∀ a ∈ l, ltStrict lt eq a a = false)
    (Ht : ∀ a ∈ l, ∀ b ∈ l, ∀ c ∈ l, ltStrict lt eq a b = true →
      ltStrict lt eq b c = true → ltStrict lt eq a c = true) :
    ∀ (rest : List α) (v : α), (∀ x ∈ rest, x ∈ l) → v ∈ l →
      ∀ x, (x = v ∨ x ∈ rest) →
        ltStrict lt eq (List.foldl (ghStep lt eq) v rest) x = false := by
  intro rest
  induction rest with
  | nil =>
    intro v _ hv x hx
    rcases hx with rfl | hx
    · exact Hi x hv
    · cases hx
  | cons h t ih =>
    intro v hsub hv x hx
    have hh : h ∈ l := hsub h (List.mem_cons_self _ _)
    have hts : ∀ z ∈ t, z ∈ l := fun z hz => hsub z (List.mem_cons_of_mem _ hz)
    rw [List.foldl_cons]
    by_cases hc : ltStrict lt eq v h = true
    · have hstep : ghStep lt eq v h = h := by unfold ghStep; simp [hc]
      rw [hstep]
      rcases hx with hxv | hx2
      · -- the superseded element x = v: it cannot strictly dominate later
        rw [hxv]
        have hasym : ltStrict lt eq h v = false := by
          cases hb : ltStrict lt eq h v
          · rfl
          · exact absurd (Ht v hv h hh v hv hc hb) (by simp [Hi v hv])
        exact gh_no_regress lt eq l Ht t h v hts hh hv hasym
      · rcases List.mem_cons.mp hx2 with hxh | hx3
        · rw [hxh]
          exact ih h hts hh h (Or.inl rfl)
        · exact ih h hts hh x (Or.inr hx3)
    · have hstep : ghStep lt eq v h = v := by unfold ghStep; simp [hc]
      rw [hstep]
      rcases hx with hxv | hx2
      · rw [hxv]
        exact ih v hts hv v (Or.inl rfl)
      · rcases List.mem_cons.mp hx2 with hxh | hx3
        · rw [hxh]
          have hvh : ltStrict lt eq v h = false := by
            cases hb : ltStrict lt eq v h
            · rfl
            · exact absurd hb hc
          exact gh_no_regress lt eq l Ht t v h hts hv hh hvh
        · exact ih v hts hv x (Or.inr hx3)

/-- C9: getHighest returns nullptr exactly on the empty set; on a non-empty
set it returns an element of the set; and when the strict comparison
isLt-and-not-isEq is irreflexive and transitive on the set (as it is when
isLt is a total order there), no element of the set is strictly above the
returned one, i.e. the result is a maximum under isLt. -/
theorem c9_getHighest {α : Type} (lt eq : α → α → Bool) (l : List α) :
    (getHighest lt eq l = none ↔ l = []) ∧
    (∀ v, getHighest lt eq l = some v → v ∈ l) ∧
    ((∀ a ∈ l, ltStrict lt eq a a = false) →
     (∀ a ∈ l, ∀ b ∈ l, ∀ c ∈ l, ltStrict lt eq a b = true →
        ltStrict lt eq b c = true → ltStrict lt eq a c = true) →
     ∀ v, getHighest lt eq l = some v → ∀ x ∈ l, ltStrict lt eq v x = false) := by
  refine ⟨?_, ?_, ?_⟩
  · cases l with
    | nil => simp [getHighest]
    | cons h t => simp [getHighest]
  · intro v hv
    cases l with
    | nil => cases hv
    | cons h t =>
      have he : List.foldl (ghStep lt eq) h t = v := by
        simpa [getHighest] using hv
      rcases gh_fold_mem lt eq t h with h1 | h2
      · rw [← he, h1]; exact List.mem_cons_self _ _
      · rw [← he]; exact List.mem_cons_of_mem _ h2
  · intro Hi Ht v hv x hx
    cases l with
    | nil => cases hv
    | cons h t =>
      have he : List.foldl (ghStep lt eq) h t = v := by
        simpa [getHighest] using hv
      have hsub : ∀ z ∈ t, z ∈ h :: t := fun z hz => List.mem_cons_of_mem _ hz
      have := gh_fold_max lt eq (h :: t) Hi Ht t h hsub (List.mem_cons_self _ _) x
        (by rcases List.mem_cons.mp hx with rfl | hx2
            · exact Or.inl rfl
            · exact Or.inr hx2)
      rw [he] at this
      exact this

/-- C9 witness: the scan over a concrete list of naturals with the strict
order Nat.blt and equality Nat.beq returns 5, an element that no list entry
strictly exceeds. -/
theorem c9_getHighest_w :
    ((5 : Nat) ∈ [3, 1, 4, 1, 5]) ∧
    (∀ x ∈ [3, 1, 4, 1, 5], ltStrict Nat.blt Nat.beq (5 : Nat) x = false) := by
  have H := c9_getHighest Nat.blt Nat.beq [3, 1, 4, 1, 5]
  have hg : getHighest Nat.blt Nat.beq [3, 1, 4, 1, 5] = some 5 := by decide
  exact ⟨H.2.1 5 hg, H.2.2 (by decide) (by decide) 5 hg⟩

/-- A set with a highest element is non-empty. -/
theorem gh_some_ne_empty {α : Type} (lt eq : α → α → Bool) (l : List α) (v : α)
    (h : getHighest lt eq l = some v) : l.isEmpty = false := by
  cases l with
  | nil => cases h
  | cons a t => rfl

/-- C2 counterexample to the claim as stated: at an assignment site where both
sides have constraint variables and the LHS solved qualifier Ptr is strictly
below the RHS solved qualifier Wild, the code inserts nothing when the RHS is
a call to a function with a bounds-safe interface (first and second
conjuncts); and at a call-argument site in the same lattice position both
insertions land at location 5, the argument's begin location — the closing
parenthesis precedes the argument text, which is therefore not wrapped
(third conjunct). -/
theorem c2_claim_cex :
    assign [CVm.mk .Ptr "ptr<int>"] [CVm.mk .Wild "int *"]
      (SrcM.mk 10 20 true none) = [] ∧
    latLt ConstAtom.Ptr ConstAtom.Wild = true ∧
    callArgEdits (ArgSite.mk false true 5 [CVm.mk .Wild "int *"]
      [CVm.mk .Ptr "ptr<int>"] []) =
      [Edit.insBefore 5 "_Assume_bounds_cast<ptr<int>>(", Edit.insAfter 5 ")"] := by
  refine ⟨rfl, rfl, ?_⟩
  decide

/-- C2 (amended): at every unsuppressed assignment or initializer site where
both sides have constraint variables, equal solved qualifiers insert no text;
LHS strictly lower wraps the RHS in _Assume_bounds_cast<LHS_type>( ... )
between its begin and end locations; LHS strictly higher prefixes the plain
C-style cast (LHS_type).  At every unsuppressed call-argument site the same
trichotomy runs against the parameter side taken as the lower of the
declaration's and the definition's solved qualifiers, with the caveat that
both Assume-bounds insertions are issued at the argument's begin location. -/
theorem c2_cast_insertion :
    (∀ (lhs rhs : List CVm) (src : SrcM) (A B : CVm),
       src.boundsItf = false →
       getHighest ltCV eqCV lhs = some A →
       getHighest ltCV eqCV rhs = some B →
       ((A.sq = B.sq → assign lhs rhs src = []) ∧
        (latLt A.sq B.sq = true →
           assign lhs rhs src =
             [Edit.insBefore src.esl ("_Assume_bounds_cast<" ++ A.str ++ ">("),
              Edit.insAfter src.ell ")"]) ∧
        (latLt B.sq A.sq = true →
           assign lhs rhs src =
             [Edit.insBefore src.esl ("(" ++ A.str ++ ")")]))) ∧
    (∀ (a : ArgSite) (E P0 : CVm),
       a.paramHasBounds = false →
       a.argIsPtr = true →
       getHighest ltCV eqCV a.argCVs = some E →
       getHighest ltCV eqCV a.declCVs = some P0 →
       ((E.sq = (effParam P0 (getHighest ltCV eqCV a.defCVs)).sq →
           callArgEdits a = []) ∧
        (latLt (effParam P0 (getHighest ltCV eqCV a.defCVs)).sq E.sq = true →
           callArgEdits a =
             [Edit.insBefore a.esl ("_Assume_bounds_cast<" ++
                (effParam P0 (getHighest ltCV eqCV a.defCVs)).str ++ ">("),
              Edit.insAfter a.esl ")"]) ∧
        (latLt E.sq (effParam P0 (getHighest ltCV eqCV a.defCVs)).sq = true →
           callArgEdits a =
             [Edit.insBefore a.esl
                ("(" ++ (effParam P0 (getHighest ltCV eqCV a.defCVs)).str ++ ")")]))) := by
  constructor
  · intro lhs rhs src A B hBI hA hB
    have hl : lhs.isEmpty = false := gh_some_ne_empty ltCV eqCV lhs A hA
    have hr : rhs.isEmpty = false := gh_some_ne_empty ltCV eqCV rhs B hB
    have huw : unwrapCast rhs src = (rhs, none) := by
      unfold unwrapCast
      rw [hr]
      rfl
    refine ⟨?_, ?_, ?_⟩
    · intro hc
      have heq : eqCV A B = true := by simp [eqCV, hc]
      simp [assign, hl, hBI, hA, huw, hB, assignEmit, heq]
    · intro hc
      have hne : eqCV A B = false := (latLt_facts _ _ hc).1
      have hlt : ltCV A B = true := hc
      simp [assign, hl, hBI, hA, huw, hB, assignEmit, hne, hlt]
    · intro hc
      rcases latLt_facts _ _ hc with ⟨_, hne2, hnl⟩
      have hne : eqCV A B = false := hne2
      have hlt : ltCV A B = false := hnl
      simp [assign, hl, hBI, hA, huw, hB, assignEmit, hne, hlt]
  · intro a E P0 hpb hip hE hP0
    refine ⟨?_, ?_, ?_⟩
    · intro hc
      have heq : eqCV E (effParam P0 (getHighest ltCV eqCV a.defCVs)) = true := by
        simp [eqCV, hc]
      simp [callArgEdits, hpb, hip, hE, hP0, heq]
    · intro hc
      have hne : eqCV E (effParam P0 (getHighest ltCV eqCV a.defCVs)) = false :=
        (latLt_facts _ _ hc).2.1
      have hlt : ltCV (effParam P0 (getHighest ltCV eqCV a.defCVs)) E = true := hc
      simp [callArgEdits, hpb, hip, hE, hP0, hne, hlt]
    · intro hc
      rcases latLt_facts _ _ hc with ⟨hne1, _, hnl⟩
      have hne : eqCV E (effParam P0 (getHighest ltCV eqCV a.defCVs)) = false := hne1
      have hlt : ltCV (effParam P0 (getHighest ltCV eqCV a.defCVs)) E = false := hnl
      simp [callArgEdits, hpb, hip, hE, hP0, hne, hlt]

/-- C2 witness: a concrete unsuppressed assignment with LHS Arr below RHS
Wild produces exactly the Assume-bounds wrap, and a concrete call argument
with matching qualifiers produces nothing. -/
theorem c2_cast_insertion_w :
    assign [CVm.mk .Arr "x"] [CVm.mk .Wild "y"] (SrcM.mk 1 2 false none) =
      [Edit.insBefore 1 ("_Assume_bounds_cast<" ++ "x" ++ ">("),
       Edit.insAfter 2 ")"] ∧
    callArgEdits (ArgSite.mk false true 7 [CVm.mk .Arr "w"] [CVm.mk .Arr "t"] []) =
      [] := by
  constructor
  · exact (c2_cast_insertion.1 [CVm.mk .Arr "x"] [CVm.mk .Wild "y"]
      (SrcM.mk 1 2 false none) (CVm.mk .Arr "x") (CVm.mk .Wild "y")
      rfl rfl rfl).2.1 (by decide)
  · exact (c2_cast_insertion.2
      (ArgSite.mk false true 7 [CVm.mk .Arr "w"] [CVm.mk .Arr "t"] [])
      (CVm.mk .Arr "w") (CVm.mk .Arr "t") rfl rfl rfl rfl).1 rfl

/-- C3: canInterface answers DoNothing when the function has no body, is
variadic, or has no second declaration distinct from the definition; with
those guards passed it answers MakeBoundary exactly when the definition's
solved parameter qualifier is strictly below the declaration's, and
IncreaseCallers in every other case (definition greater than or equal). -/
theorem c3_canInterface_cases (f : ParamView) :
    ((f.hasBody = false ∨ f.isVariadic = true ∨ f.hasSecondDecl = false) →
       canInterface f = .DoNothing) ∧
    (f.hasBody = true → f.isVariadic = false → f.hasSecondDecl = true →
       ((latLt f.defSq f.declSq = true → canInterface f = .MakeBoundary) ∧
        (latLt f.defSq f.declSq = false → canInterface f = .IncreaseCallers))) := by
  constructor
  · intro h
    rcases h with h | h | h <;> simp [canInterface, h]
  · intro h1 h2 h3
    constructor <;> intro hlt <;> simp [canInterface, h1, h2, h3, hlt]

/-- C3 witness: a function with body, a second declaration and definition
qualifier Ptr below declaration qualifier Wild gets MakeBoundary; making it
variadic yields DoNothing; flipping the comparison yields IncreaseCallers. -/
theorem c3_canInterface_w :
    canInterface (ParamView.mk true false true .Wild .Ptr) = .MakeBoundary ∧
    canInterface (ParamView.mk true true true .Wild .Ptr) = .DoNothing ∧
    canInterface (ParamView.mk true false true .Ptr .Wild) = .IncreaseCallers := by
  refine ⟨?_, ?_, ?_⟩
  · exact ((c3_canInterface_cases _).2 rfl rfl rfl).1 (by decide)
  · exact (c3_canInterface_cases _).1 (Or.inr (Or.inl rfl))
  · exact ((c3_canInterface_cases _).2 rfl rfl rfl).2 (by decide)

end ChkC
